import Mathlib

/-!
Verification of the ciphey credential vault against its specification.

The development shallowly embeds the Rust sources:
* `crates/ciphey-kvstore/src/lib.rs` — the line-oriented record format
  (`Key`, `Value`, `KeyValuePair`, `KvStore` with `serialize`,
  `deserialize` and `display`);
* `crates/ciphey/src/backends/crypto/transparent/mod.rs` — the transparent
  crypto backend (`encrypt_output`, `decrypt_input`);
* `crates/libciphey-fs/src/lib.rs`, `file.rs`, `directory.rs` — the
  filesystem storage backend (`Filesystem::entries`, `Filesystem::add_entry`,
  `File::writer`, path-kind validation);
* `crates/ciphey/src/cli/mod.rs` — the `list` orchestration.

Rust `String`s are modelled as `List Char` (`RStr`); byte-level I/O is
modelled as explicit character streams; the filesystem is modelled as a
finite association of paths to entities, threaded explicitly.
-/

/-- A Rust string, modelled as its list of characters. -/
abbrev RStr := List Char

/-- Rust `str::len` is a byte count; a character contributes its UTF-8 size. -/
def rustLen (s : RStr) : Nat := (s.map Char.utf8Size).sum

/-! ## Record format: `crates/ciphey-kvstore/src/lib.rs` -/

/-- The `const DELIMETER: char = '='` (sic, spelling from the source). -/
def DELIMETER : Char := '='

/-- The `const SENSITIVITY: char = '!'`. -/
def SENSITIVITY : Char := '!'

/-- The `enum Key`: well-known field names plus an open `Other` case. -/
inductive Key where
  | Name
  | Username
  | Email
  | Password
  | Url
  | Notes
  | Other (text : RStr)
  deriving DecidableEq, Repr

/-- The `impl FromStr for Key` — infallible: unknown text maps to `Other`. -/
def Key.fromStr (s : RStr) : Key :=
  if s = "name".toList then .Name
  else if s = "username".toList then .Username
  else if s = "email".toList then .Email
  else if s = "password".toList then .Password
  else if s = "url".toList then .Url
  else if s = "notes".toList then .Notes
  else .Other s

/-- The `impl Display for Key`. -/
def Key.display : Key → RStr
  | .Name => "name".toList
  | .Username => "username".toList
  | .Email => "email".toList
  | .Password => "password".toList
  | .Url => "url".toList
  | .Notes => "notes".toList
  | .Other v => v

/-- The `enum Value`: sensitivity is a display-only attribute. -/
inductive Value where
  | Sensitive (text : RStr)
  | Insensitive (text : RStr)
  deriving DecidableEq, Repr

/-- The text carried by a `Value` (the two match arms in the source that
extract the inner `String`). -/
def Value.text : Value → RStr
  | .Sensitive v => v
  | .Insensitive v => v

/-- Whether a `Value` is the `Sensitive` variant
(`if let Value::Sensitive(_) = self.value`). -/
def Value.sensitiveFlag : Value → Bool
  | .Sensitive _ => true
  | .Insensitive _ => false

/-- The `struct KeyValuePair { key: Key, value: Value }`. -/
structure KeyValuePair where
  key : Key
  value : Value
  deriving DecidableEq, Repr

/-- The `enum Error` of ciphey-kvstore (named `KvError` here to keep the several
`Error` types of the repository apart). `IoFailure` stands for `Error::Io`,
which carries an `io::Error`; our pure streams never raise it. -/
inductive KvError where
  | IoFailure
  | MissingDelimeter (line : RStr)
  deriving DecidableEq, Repr

/-- Rust `str::split_once(d)`: split at the first occurrence of `d`, the
delimiter itself belonging to neither part; `none` when `d` is absent. -/
def splitOnce (d : Char) : RStr → Option (RStr × RStr)
  | [] => none
  | c :: cs =>
    if c = d then some ([], cs)
    else
      match splitOnce d cs with
      | some (k, v) => some (c :: k, v)
      | none => none

/-- Rust `str::ends_with(c)` for a single character. -/
def endsWithChar (l : RStr) (c : Char) : Bool :=
  l.getLast? == some c

/-- The `impl FromStr for KeyValuePair`: split the line at the first `=`; a
trailing `!` on the key span marks the value sensitive and is popped off. -/
def KeyValuePair.fromStr (s : RStr) : Except KvError KeyValuePair :=
  match splitOnce DELIMETER s with
  | some (key, value) =>
    let v : Value :=
      if endsWithChar key SENSITIVITY then .Sensitive value
      else .Insensitive value
    let key : RStr :=
      if endsWithChar key SENSITIVITY then key.dropLast else key
    .ok ⟨Key.fromStr key, v⟩
  | none => .error (.MissingDelimeter s)

/-- The `impl Display for KeyValuePair`:
`write!(f, "{}{}{}{}", key, sensitivity, DELIMETER, value)`. -/
def KeyValuePair.display (p : KeyValuePair) : RStr :=
  p.key.display
    ++ (if p.value.sensitiveFlag then [SENSITIVITY] else [])
    ++ [DELIMETER] ++ p.value.text

/-- The `struct KvStore { key_value_pairs: Vec<KeyValuePair> }`. -/
structure KvStore where
  key_value_pairs : List KeyValuePair
  deriving DecidableEq, Repr

/-- Strip one trailing `'\r'` (the CRLF handling inside `BufRead::lines`). -/
def stripCR (l : RStr) : RStr :=
  if l.getLast? == some '\r' then l.dropLast else l

/-- Worker for `rustLines`; `cur` is the reversed current line. -/
def rustLinesGo (cur : RStr) : RStr → List RStr
  | [] => if cur.isEmpty then [] else [cur.reverse]
  | c :: cs =>
    if c = '\n' then stripCR cur.reverse :: rustLinesGo [] cs
    else rustLinesGo (c :: cur) cs

/-- Rust `BufRead::lines`: newline-delimited, each yielded line stripped of
its trailing `'\n'` and of `'\r'` when the terminator was CRLF; a final
unterminated segment is yielded as-is (no `'\r'` stripping there), and a
trailing newline does not produce an empty final line. -/
def rustLines (l : RStr) : List RStr := rustLinesGo [] l

/-- The `KvStore::serialize`: one `writeln!` per pair, in order. -/
def KvStore.serialize (s : KvStore) : RStr :=
  (s.key_value_pairs.map (fun p => p.display ++ ['\n'])).flatten

/-- The `collect::<Result<Vec<_>, Error>>` step: parse items in order,
the first failure aborting with its error. -/
def collectResults (f : RStr → Except KvError KeyValuePair) :
    List RStr → Except KvError (List KeyValuePair)
  | [] => .ok []
  | a :: rest =>
    match f a with
    | .error e => .error e
    | .ok p =>
      match collectResults f rest with
      | .error e => .error e
      | .ok ps => .ok (p :: ps)

/-- The `KvStore::deserialize`: read all lines, then parse every line as a
`KeyValuePair`, the first failure aborting the whole decode. -/
def KvStore.deserialize (input : RStr) : Except KvError KvStore :=
  match collectResults KeyValuePair.fromStr (rustLines input) with
  | .error e => .error e
  | .ok ps => .ok ⟨ps⟩

/-- The `struct DisplayOptions`; the `HashSet<Key>` is modelled as a list used
only through membership. -/
structure DisplayOptions where
  show_all : Bool
  enabled_keys : List Key

/-- The per-value branch of `KvStore::display`: sensitive values are shown
only when `show_secrets`, otherwise redacted to
`"*".repeat(min(value.len(), 16))`; insensitive values are always shown. -/
def displayedValue (show_secrets : Bool) : Value → RStr
  | .Sensitive value =>
    if show_secrets then value
    else List.replicate (min (rustLen value) 16) '*'
  | .Insensitive value => value

/-- The key filter of `KvStore::display`:
`opts.show_all || opts.enabled_keys.contains(key)`. -/
def selectedKey (opts : DisplayOptions) (k : Key) : Bool :=
  opts.show_all || opts.enabled_keys.contains k

/-- The `for` loop of `KvStore::display`, accumulating the written output. -/
def KvStore.displayGo (opts : DisplayOptions) (show_secrets : Bool) :
    List KeyValuePair → RStr
  | [] => []
  | kv :: rest =>
    (if selectedKey opts kv.key
     then kv.key.display ++ ": ".toList
          ++ displayedValue show_secrets kv.value ++ ['\n']
     else [])
    ++ KvStore.displayGo opts show_secrets rest

/-- The `KvStore::display` (a pure read of `&self`: the record is not mutated;
the produced value is the text written to the output writer). -/
def KvStore.display (s : KvStore) (opts : DisplayOptions)
    (show_secrets : Bool) : RStr :=
  KvStore.displayGo opts show_secrets s.key_value_pairs

/-! ## Transparent crypto backend:
`crates/ciphey/src/backends/crypto/transparent/mod.rs` -/

/-- Rust `BufRead::read_line`: take one line from the stream, including its
terminating `'\n'` when present; at end of stream the line is empty.
Returns the line read and the remaining stream. -/
def readLine : RStr → RStr × RStr
  | [] => ([], [])
  | c :: cs =>
    if c = '\n' then (['\n'], cs)
    else
      let (l, r) := readLine cs
      (c :: l, r)

/-- Rust `str::starts_with` specialised to a pattern list. -/
def startsWithChars : RStr → RStr → Bool
  | [], _ => true
  | _ :: _, [] => false
  | p :: ps, c :: cs => p == c && startsWithChars ps cs

/-- The recipient-header marker `"-> "`. -/
def arrowMarker : RStr := "-> ".toList

/-- Rust `str::trim_start_matches("-> ")`: strip every leading repetition of
the marker. -/
def trimArrowMatches : RStr → RStr
  | '-' :: '>' :: ' ' :: rest => trimArrowMatches rest
  | l => l

/-- The `while let` loop of `Transparent::decrypt_input`. Each pass of the
loop condition reads one line and tests it against `"-> "`; the loop body
records the recipient text of the condition's line and then reads one more
line whose content is discarded. On exit the wrapped reader holds exactly
the bytes not yet consumed by those reads. `fuel` only bounds the recursion;
the callers below always supply more fuel than the loop can use, so the
zero-fuel branch is unreachable. -/
def decryptLoop : Nat → RStr → List RStr × RStr
  | 0, input => ([], input)
  | fuel + 1, input =>
    let (line, rest) := readLine input
    if startsWithChars arrowMarker line then
      let recipient := trimArrowMatches line
      let (_, rest2) := readLine rest
      let (recipients, rem) := decryptLoop fuel rest2
      (recipient :: recipients, rem)
    else
      ([], rest)

/-- The `Transparent::decrypt_input`: returns the collected recipient texts
(currently unused by the caller) and the stream exposed by the returned
`Decrypted` reader. -/
def Transparent.decrypt_input (ciphertext : RStr) : List RStr × RStr :=
  decryptLoop (ciphertext.length + 1) ciphertext

/-- The `Transparent::encrypt_output`: the header written to the wrapped output
before the sink is handed back — one `"-> {recipient}\n"` line per
recipient, then the separator line `"---\n"`. -/
def Transparent.encrypt_output (recipients : List RStr) : RStr :=
  (recipients.map (fun r => "-> ".toList ++ r ++ ['\n'])).flatten
    ++ "---\n".toList

/-- The full underlying stream after `body` has been written through the
`Encrypted` sink returned by `encrypt_output` (the sink passes writes
through unchanged). -/
def Transparent.encryptStream (recipients : List RStr) (body : RStr) : RStr :=
  Transparent.encrypt_output recipients ++ body

/-! ## Filesystem storage backend: `crates/libciphey-fs` -/

/-- What a path can resolve to on the modelled filesystem. -/
inductive Entity where
  | file (content : RStr)
  | dir
  deriving DecidableEq, Repr

/-- A filesystem path, as a list of components. -/
abbrev FsPath := List String

/-- The filesystem state: a finite association of paths to entities. -/
abbrev FsState := List (FsPath × Entity)

/-- Look a path up in the filesystem state (first match wins). -/
def lookupFs (st : FsState) (p : FsPath) : Option Entity :=
  match st with
  | [] => none
  | (q, e) :: rest => if q = p then some e else lookupFs rest p

/-- The `io::ErrorKind` values the embedded code distinguishes. -/
inductive IoErrorKind where
  | NotADirectory
  | IsADirectory
  | AlreadyExists
  | NotFound
  deriving DecidableEq, Repr

/-- The `Directory::new`: if something exists at the path and it is not a
directory, fail with `NotADirectory`; otherwise accept the path (the path
is allowed not to exist). -/
def Directory.new (path : FsPath) (st : FsState) :
    Except IoErrorKind FsPath :=
  match lookupFs st path with
  | some (.file _) => .error .NotADirectory
  | _ => .ok path

/-- The `File::new`: if something exists at the path and it is a directory,
fail with `IsADirectory`; otherwise accept the path. -/
def File.new (path : FsPath) (st : FsState) : Except IoErrorKind FsPath :=
  match lookupFs st path with
  | some .dir => .error .IsADirectory
  | _ => .ok path

/-- The `Directory::subdirectory`: push a component, then validate as directory. -/
def Directory.subdirectory (d : FsPath) (name : String) (st : FsState) :
    Except IoErrorKind FsPath :=
  Directory.new (d ++ [name]) st

/-- The `Directory::subfile`: push a component, then validate as file. -/
def Directory.subfile (d : FsPath) (name : String) (st : FsState) :
    Except IoErrorKind FsPath :=
  File.new (d ++ [name]) st

/-- The `File::writer`, i.e. `OpenOptions::new().create_new(true).write(true)
.open(path)`: `create_new` makes the open fail with `AlreadyExists` when
anything already exists at the path, and otherwise atomically creates the
file empty. Returns the filesystem state after a successful open. -/
def File.writer (path : FsPath) (st : FsState) :
    Except IoErrorKind FsState :=
  match lookupFs st path with
  | some _ => .error .AlreadyExists
  | none => .ok ((path, Entity.file []) :: st)

/-- The `File::reader`, i.e. a read-only `open`: fails with `NotFound` when
nothing exists at the path. Yields the readable content. -/
def File.reader (path : FsPath) (st : FsState) : Except IoErrorKind RStr :=
  match lookupFs st path with
  | some (.file c) => .ok c
  | some .dir => .error .IsADirectory
  | none => .error .NotFound

/-- The `Filesystem::entries_path`: `self.root.subdirectory("entries")`. -/
def Filesystem.entries_path (root : FsPath) (st : FsState) :
    Except IoErrorKind FsPath :=
  Directory.subdirectory root "entries" st

/-- The `Filesystem::add_entry`: format the identifier as
`<hyphenated-uuid>.age`, resolve the entries directory, and hand back a
`File` reference for that child path. The identifier is modelled as its
canonical hyphenated text (`uuid.hyphenated().to_string()`). -/
def Filesystem.add_entry (root : FsPath) (uuid : String) (st : FsState) :
    Except IoErrorKind FsPath :=
  let filename := uuid ++ ".age"
  match Filesystem.entries_path root st with
  | .error e => .error e
  | .ok ep => Directory.subfile ep filename st

/-- Lowercase hexadecimal digit test. -/
def isLowerHexDigit (c : Char) : Bool :=
  ('0' ≤ c && c ≤ '9') || ('a' ≤ c && c ≤ 'f')

/-- The canonical hyphenated 128-bit identifier shape:
8-4-4-4-12 lowercase hex digit groups separated by hyphens. -/
def isCanonicalUuid (s : RStr) : Bool :=
  s.length == 36 &&
  s.enum.all fun ic =>
    if ic.1 == 8 || ic.1 == 13 || ic.1 == 18 || ic.1 == 23
    then ic.2 == '-'
    else isLowerHexDigit ic.2

/-- The external `Uuid::from_str` used by `Filesystem::entries`, modelled on
the canonical hyphenated text form — the only form the backend itself ever
creates (`uuid.hyphenated().to_string()` in `add_entry`). An identifier is
modelled as that canonical text. -/
def Uuid.from_str (s : RStr) : Option String :=
  if isCanonicalUuid s then some (String.mk s) else none

/-- Split a file name at its last `'.'`; `none` when there is no `'.'` or
when the only `'.'` leads the name (the hidden-file rule shared by Rust's
`Path::extension` and `Path::file_stem`). -/
def lastDotSplit (name : RStr) : Option (RStr × RStr) :=
  match splitOnce '.' name.reverse with
  | none => none
  | some (extRev, stemRev) =>
    if stemRev.isEmpty then none
    else some (stemRev.reverse, extRev.reverse)

/-- Rust `Path::extension` on a plain file name. -/
def rustExtension (name : RStr) : Option RStr :=
  (lastDotSplit name).map (fun p => p.2)

/-- Rust `Path::file_stem` on a plain file name (for a directory child the
file name is always present, so the `Option` of the original collapses). -/
def rustFileStem (name : RStr) : RStr :=
  match lastDotSplit name with
  | none => name
  | some (stem, _) => stem

/-- The extension test of `Filesystem::entries`:
`path.extension().map_or(true, |ext| ext != "age")` — `true` means skip. -/
def skipByExtension (name : RStr) : Bool :=
  match rustExtension name with
  | none => true
  | some ext => ext != "age".toList

/-- The children of directory `d` in the filesystem state, with their
entities — the listing `fs::read_dir` iterates over (iteration order is
the state's order, matching `read_dir`'s unspecified order). -/
def childAt (d : FsPath) (p : FsPath) : Option String :=
  if p.dropLast = d then p.getLast? else none

/-- All `(name, entity)` children of `d` recorded in the state. -/
def childrenOf (st : FsState) (d : FsPath) : List (String × Entity) :=
  st.filterMap (fun pe => (childAt d pe.1).map (fun n => (n, pe.2)))

/-- The `HashMap::insert`: replace the value at an existing key, otherwise add
the binding. -/
def insertAssoc (k : String) (v : FsPath) :
    List (String × FsPath) → List (String × FsPath)
  | [] => [(k, v)]
  | (k2, v2) :: rest =>
    if k2 = k then (k, v) :: rest else (k2, v2) :: insertAssoc k v rest

/-- The `for` loop of `Filesystem::entries`: skip directories, skip names
without the `age` extension, skip stems that do not parse as identifiers,
and insert a `File` reference for everything else. -/
def Filesystem.entriesGo (st : FsState) (ep : FsPath) :
    List (String × Entity) → List (String × FsPath) →
    Except IoErrorKind (List (String × FsPath))
  | [], acc => .ok acc
  | (name, _e) :: rest, acc =>
    -- `path.is_dir()` consults the filesystem
    if lookupFs st (ep ++ [name]) = some Entity.dir then
      Filesystem.entriesGo st ep rest acc
    else if skipByExtension name.toList then
      Filesystem.entriesGo st ep rest acc
    else
      match Uuid.from_str (rustFileStem name.toList) with
      | none => Filesystem.entriesGo st ep rest acc
      | some uuid =>
        match File.new (ep ++ [name]) st with
        | .error e => .error e
        | .ok f => Filesystem.entriesGo st ep rest (insertAssoc uuid f acc)

/-- The `Filesystem::entries`: resolve the entries directory, read it
(`fs::read_dir` fails with `NotFound` when the directory does not exist),
and run the loop starting from an empty map. -/
def Filesystem.entries (root : FsPath) (st : FsState) :
    Except IoErrorKind (List (String × FsPath)) :=
  match Filesystem.entries_path root st with
  | .error e => .error e
  | .ok ep =>
    match lookupFs st ep with
    | some Entity.dir => Filesystem.entriesGo st ep (childrenOf st ep) []
    | some (Entity.file _) => .error .NotADirectory
    | none => .error .NotFound

/-! ## CLI `list` orchestration: `crates/ciphey/src/cli/mod.rs` -/

/-- The variants of `cli::Error` reachable from the body of `list`'s
per-entry loop. -/
inductive CliError where
  | Crypto (msg : RStr)
  | Filetype (e : KvError)
  deriving DecidableEq, Repr

/-- The `List` command flags used by `list` (from `flags.rs`). -/
structure ListOpts where
  quiet : Bool
  all : Bool
  no_default : Bool
  displayFlags : List RStr

/-- The `cli::defaults::KEYS`: the keys displayed by default. -/
def defaultKeys : List Key := [.Name, .Username, .Email, .Url]

/-- The enabled-key set built inside `list`'s loop: the defaults unless
`--no-default`, plus every explicitly requested `--display` key. -/
def enabledKeysFor (opts : ListOpts) : List Key :=
  (if !opts.no_default then defaultKeys else [])
    ++ opts.displayFlags.map Key.fromStr

/-- One pass of `list`'s per-entry processing, for a crypto backend whose
decryption of a full entry stream is `decryptF`: decrypt the entry, parse
it as a `KvStore`, and render it. Any failure is mapped into `CliError`
exactly as the `map_err` calls in the source do. -/
def renderEntry (decryptF : RStr → Except RStr RStr) (opts : ListOpts)
    (show_secrets : Bool) (content : RStr) : Except CliError RStr :=
  match decryptF content with
  | .error e => .error (CliError.Crypto e)
  | .ok body =>
    match KvStore.deserialize body with
    | .error e => .error (CliError.Filetype e)
    | .ok store =>
      .ok (KvStore.display store ⟨opts.all, enabledKeysFor opts⟩ show_secrets)

/-- The `for reference in references` loop of `list`: write the `"---"`
separator, process the entry, and append its rendering; the `?` operators
on the decrypt and deserialize results return the error immediately,
abandoning the loop. -/
def cliListGo (decryptF : RStr → Except RStr RStr) (opts : ListOpts)
    (show_secrets : Bool) : List RStr → RStr → Except CliError RStr
  | [], out => .ok out
  | content :: rest, out =>
    match renderEntry decryptF opts show_secrets content with
    | .error e => .error e
    | .ok r =>
      cliListGo decryptF opts show_secrets rest
        (out ++ "---\n".toList ++ r)

/-- The `cli::list` over an already-enumerated list of entry contents: the
statistics line (unless `--quiet`), then the per-entry loop. -/
def cliList (decryptF : RStr → Except RStr RStr) (opts : ListOpts)
    (show_secrets : Bool) (entries : List RStr) : Except CliError RStr :=
  let stats : RStr :=
    if !opts.quiet then
      "Found ".toList ++ (toString entries.length).toList
        ++ (if entries.length = 1 then " Entry".toList else " Entries".toList)
        ++ ['\n']
    else []
  cliListGo decryptF opts show_secrets entries stats

/-- The transparent backend's decryption of a full entry stream, as plugged
into `list`: it never fails, and exposes what remains after the header
scan. -/
def transparentDecryptF (s : RStr) : Except RStr RStr :=
  .ok (Transparent.decrypt_input s).2

/-! ## Theorems -/

deriving instance DecidableEq for Except

/-- Unrolling: `KvStore.displayGo` written as the concatenation of one rendered line
per selected field. -/
theorem displayGo_eq_flatten (opts : DisplayOptions) (b : Bool)
    (l : List KeyValuePair) :
    KvStore.displayGo opts b l
      = (l.map (fun kv =>
          if selectedKey opts kv.key
          then kv.key.display ++ ": ".toList
               ++ displayedValue b kv.value ++ ['\n']
          else [])).flatten := by
  induction l with
  | nil => rfl
  | cons kv rest ih => simp [KvStore.displayGo, ih]

/-- C10: parsing any key text and displaying the result reproduces the text
exactly — each well-known variant displays as the text that parses to it,
and any other text is preserved verbatim by `Other`. -/
theorem key_parse_display_identity (s : RStr) :
    (Key.fromStr s).display = s := by
  unfold Key.fromStr
  split_ifs with h1 h2 h3 h4 h5 h6 <;> simp [Key.display, *]

/-- C2: rendering with reveal-secrets false emits, for each field selected
by the policy, the key text, `": "`, the displayed value and a newline, in
record order; the displayed value of a sensitive value `v` is exactly
`min(len(v), 16)` asterisks — its length is that minimum and its alphabet
is `{'*'}` — while an insensitive value is emitted verbatim. The embedding
of `display` is a pure function of the record, which is not mutated. -/
theorem display_redaction_contract (s : KvStore) (opts : DisplayOptions)
    (v : RStr) :
    KvStore.display s opts false
      = (s.key_value_pairs.map (fun kv =>
          if selectedKey opts kv.key
          then kv.key.display ++ ": ".toList
               ++ displayedValue false kv.value ++ ['\n']
          else [])).flatten
    ∧ displayedValue false (Value.Sensitive v)
        = List.replicate (min (rustLen v) 16) '*'
    ∧ (displayedValue false (Value.Sensitive v)).length = min (rustLen v) 16
    ∧ (displayedValue false (Value.Sensitive v)).all (fun c => c == '*') = true
    ∧ displayedValue false (Value.Insensitive v) = v := by
  refine ⟨displayGo_eq_flatten opts false s.key_value_pairs, rfl, ?_, ?_, rfl⟩
  · simp [displayedValue]
  · simp only [displayedValue, if_neg]
    rw [List.all_eq_true]
    intro c hc
    simp [List.eq_of_mem_replicate hc]

/-- C6: the transparent backend's concrete round-trip — encrypting
`"Secret Data"` to recipients `"Public Key A"` and `"Public Key B"`
produces exactly the framed stream, and decrypting that stream exposes
exactly `"Secret Data"`. -/
theorem transparent_concrete_roundtrip :
    Transparent.encryptStream
        ["Public Key A".toList, "Public Key B".toList] "Secret Data".toList
      = "-> Public Key A\n-> Public Key B\n---\nSecret Data".toList
    ∧ (Transparent.decrypt_input
        "-> Public Key A\n-> Public Key B\n---\nSecret Data".toList).2
      = "Secret Data".toList := by
  constructor <;> decide

/-- C5: with a single `"-> "` line, the separator, and a body, the
transparent decrypt path consumes more than the header: the loop body's
extra `read_line` discards the separator, and the next loop condition then
consumes the first body line, so the exposed remainder is empty rather
than the body `"Secret Data"`. -/
theorem transparent_decrypt_swallows_line :
    (Transparent.decrypt_input "-> Public Key A\n---\nSecret Data".toList).2
      = []
    ∧ "Secret Data".toList ≠ ([] : RStr) := by
  constructor <;> decide

/-- C8: `File::writer` has create-new semantics: it fails with
`AlreadyExists` whenever anything is already persisted at the reference's
path (in particular an entry with content), and when nothing exists it
succeeds by creating the object anew and empty. -/
theorem writer_create_new_semantics (st : FsState) (p : FsPath) :
    (∀ e, lookupFs st p = some e →
       File.writer p st = .error IoErrorKind.AlreadyExists)
    ∧ (lookupFs st p = none →
       File.writer p st = .ok ((p, Entity.file []) :: st)
       ∧ lookupFs ((p, Entity.file []) :: st) p = some (Entity.file [])) := by
  constructor
  · intro e he
    simp [File.writer, he]
  · intro h
    refine ⟨by simp [File.writer, h], by simp [lookupFs]⟩

/-- Witness for C8 at a concrete filesystem: a path holding content makes
`writer` fail with `AlreadyExists`; a fresh path is created anew. -/
theorem writer_create_new_semantics_witness :
    File.writer ["vault", "e.age"]
        [(["vault", "e.age"], Entity.file "data".toList)]
      = .error IoErrorKind.AlreadyExists
    ∧ File.writer ["vault", "f.age"] []
      = .ok [(["vault", "f.age"], Entity.file [])] :=
  ⟨(writer_create_new_semantics
      [(["vault", "e.age"], Entity.file "data".toList)] ["vault", "e.age"]).1
      (Entity.file "data".toList) (by decide),
   ((writer_create_new_semantics [] ["vault", "f.age"]).2 (by decide)).1⟩

/-- A store state that already holds an entry for one identifier: the
entries directory exists and the entry file holds content. -/
def stWithEntry : FsState :=
  [ (["root", "entries"], Entity.dir),
    (["root", "entries", "0d8d2d52-5e9e-4f6b-8a3f-1f2e3d4c5b6a.age"],
     Entity.file "old-secret".toList) ]

/-- C1 counterexample: with an entry already persisted for the identifier,
a second `add_entry` with that identifier does **not** return an
`AlreadyExists`-class error — it succeeds, handing back a reference to the
existing entry's path (`File::new` only rejects directories; no existence
check happens in `add_entry`). -/
theorem add_entry_second_call_succeeds :
    Filesystem.add_entry ["root"] "0d8d2d52-5e9e-4f6b-8a3f-1f2e3d4c5b6a"
        stWithEntry
      = .ok ["root", "entries", "0d8d2d52-5e9e-4f6b-8a3f-1f2e3d4c5b6a.age"]
    ∧ Filesystem.add_entry ["root"] "0d8d2d52-5e9e-4f6b-8a3f-1f2e3d4c5b6a"
        stWithEntry
      ≠ .error IoErrorKind.AlreadyExists := by
  constructor <;> decide

/-- C1 amended: a second `add_entry` with an identifier that already has a
persisted entry succeeds and returns a reference to the existing entry's
path; the overwrite protection triggers when `writer()` is invoked on that
reference — it fails with `AlreadyExists` — and the persisted content of
the existing entry is unchanged. -/
theorem add_entry_overwrite_protection (root : FsPath) (u : String)
    (st : FsState) (c : RStr)
    (hdir : lookupFs st (root ++ ["entries"]) = some Entity.dir)
    (hfile : lookupFs st (root ++ ["entries", u ++ ".age"])
      = some (Entity.file c)) :
    Filesystem.add_entry root u st = .ok (root ++ ["entries", u ++ ".age"])
    ∧ File.writer (root ++ ["entries", u ++ ".age"]) st
      = .error IoErrorKind.AlreadyExists
    ∧ lookupFs st (root ++ ["entries", u ++ ".age"])
      = some (Entity.file c) := by
  have hassoc : (root ++ ["entries"]) ++ [u ++ ".age"]
      = root ++ ["entries", u ++ ".age"] := by
    simp
  refine ⟨?_, by simp [File.writer, hfile], hfile⟩
  simp [Filesystem.add_entry, Filesystem.entries_path, Directory.subdirectory,
    Directory.new, hdir, Directory.subfile, File.new, hassoc, hfile]

/-- Witness for the amended C1 at a concrete store state. -/
theorem add_entry_overwrite_protection_witness :
    Filesystem.add_entry ["root"] "0d8d2d52-5e9e-4f6b-8a3f-1f2e3d4c5b6a"
        stWithEntry
      = .ok (["root"]
          ++ ["entries", "0d8d2d52-5e9e-4f6b-8a3f-1f2e3d4c5b6a" ++ ".age"])
    ∧ File.writer (["root"]
          ++ ["entries", "0d8d2d52-5e9e-4f6b-8a3f-1f2e3d4c5b6a" ++ ".age"])
        stWithEntry
      = .error IoErrorKind.AlreadyExists
    ∧ lookupFs stWithEntry (["root"]
          ++ ["entries", "0d8d2d52-5e9e-4f6b-8a3f-1f2e3d4c5b6a" ++ ".age"])
      = some (Entity.file "old-secret".toList) :=
  add_entry_overwrite_protection ["root"]
    "0d8d2d52-5e9e-4f6b-8a3f-1f2e3d4c5b6a" stWithEntry "old-secret".toList
    (by decide) (by decide)

/-- A well-formed entry stream rendering the single field `name=alpha`. -/
def entryAlpha : RStr := Transparent.encryptStream [] "name=alpha\n".toList

/-- A malformed entry stream: its record body lacks the `=` delimiter. -/
def entryBad : RStr := "---\nnodelim\n".toList

/-- A well-formed entry stream rendering the single field `name=beta`. -/
def entryBeta : RStr := Transparent.encryptStream [] "name=beta\n".toList

/-- The `list` flags used in the C4 statements: `--quiet`, defaults on. -/
def quietOpts : ListOpts := ⟨true, false, false, []⟩

/-- C4 counterexample: with three entries of which the middle one fails to
deserialize, `list` returns that entry's error as the error of the whole
operation — nothing is reported per-entry and the remaining entry is never
processed — while the same run without the malformed entry renders both
good entries. -/
theorem list_error_aborts_enumeration :
    cliList transparentDecryptF quietOpts false
        [entryAlpha, entryBad, entryBeta]
      = .error (CliError.Filetype (KvError.MissingDelimeter "nodelim".toList))
    ∧ cliList transparentDecryptF quietOpts false [entryAlpha, entryBeta]
      = .ok "---\nname: alpha\n---\nname: beta\n".toList := by
  constructor <;> decide

/-- C4 amended: a failure to decrypt or deserialize one entry aborts the
whole `list` operation — after any run of successfully processed entries,
the first failing entry's error becomes the result of the operation and
the entries after it are never processed (the result does not depend on
them). -/
theorem list_fail_fast (decryptF : RStr → Except RStr RStr)
    (opts : ListOpts) (b : Bool) (pre post : List RStr) (bad : RStr)
    (out : RStr) (e : CliError)
    (hpre : ∀ c ∈ pre, ∃ r, renderEntry decryptF opts b c = .ok r)
    (hbad : renderEntry decryptF opts b bad = .error e) :
    cliListGo decryptF opts b (pre ++ bad :: post) out = .error e := by
  induction pre generalizing out with
  | nil => simp [cliListGo, hbad]
  | cons c rest ih =>
    obtain ⟨r, hr⟩ := hpre c (List.mem_cons_self c rest)
    simp only [List.cons_append, cliListGo, hr]
    exact ih _ (fun c2 h2 => hpre c2 (List.mem_cons_of_mem c h2))

/-- Witness for the amended C4: one good entry, then the malformed entry,
then another entry that is never reached. -/
theorem list_fail_fast_witness :
    cliListGo transparentDecryptF quietOpts false
        ([entryAlpha] ++ entryBad :: [entryBeta]) []
      = .error
          (CliError.Filetype (KvError.MissingDelimeter "nodelim".toList)) :=
  list_fail_fast transparentDecryptF quietOpts false [entryAlpha] [entryBeta]
    entryBad [] (CliError.Filetype (KvError.MissingDelimeter "nodelim".toList))
    (by
      intro c hc
      simp only [List.mem_singleton] at hc
      subst hc
      exact ⟨"name: alpha\n".toList, by decide⟩)
    (by decide)


/-- If the delimiter does not occur in the line, `splitOnce` finds nothing. -/
theorem splitOnce_eq_none (d : Char) (l : RStr) (h : d ∉ l) :
    splitOnce d l = none := by
  induction l with
  | nil => rfl
  | cons c cs ih =>
    simp only [List.mem_cons, not_or] at h
    simp [splitOnce, Ne.symm h.1, ih h.2]

/-- Splitting happens at the first occurrence of the delimiter; everything
after that occurrence — further delimiters included — lands in the second
component. -/
theorem splitOnce_append (d : Char) (a b : RStr) (h : d ∉ a) :
    splitOnce d (a ++ d :: b) = some (a, b) := by
  induction a with
  | nil => simp [splitOnce]
  | cons c cs ih =>
    simp only [List.mem_cons, not_or] at h
    simp [splitOnce, Ne.symm h.1, ih h.2]

/-- Failures of `KeyValuePair.fromStr` are always `MissingDelimeter`. -/
theorem fromStr_error_shape (l : RStr) (e : KvError)
    (h : KeyValuePair.fromStr l = .error e) :
    ∃ s, e = KvError.MissingDelimeter s := by
  unfold KeyValuePair.fromStr at h
  cases hs : splitOnce DELIMETER l with
  | some p => simp [hs] at h
  | none =>
    simp [hs] at h
    exact ⟨l, h.symm⟩

/-- If some line lacks the delimiter, parsing all lines fails with a
`MissingDelimeter` error: no partial result survives. -/
theorem collectResults_error (lines : List RStr) (line : RStr)
    (hmem : line ∈ lines) (hno : DELIMETER ∉ line) :
    ∃ s, collectResults KeyValuePair.fromStr lines
      = .error (KvError.MissingDelimeter s) := by
  induction lines with
  | nil => cases hmem
  | cons a rest ih =>
    cases ha : KeyValuePair.fromStr a with
    | error e =>
      obtain ⟨s, rfl⟩ := fromStr_error_shape a e ha
      exact ⟨s, by simp [collectResults, ha]⟩
    | ok p =>
      rcases List.mem_cons.mp hmem with heq | hrest
      · rw [← heq] at ha
        rw [KeyValuePair.fromStr,
          splitOnce_eq_none DELIMETER line hno] at ha
        cases ha
      · obtain ⟨s, hs⟩ := ih hrest
        exact ⟨s, by simp [collectResults, ha, hs]⟩

/-- The texts of the well-known keys. -/
def wellKnownKeyTexts : List RStr :=
  ["name".toList, "username".toList, "email".toList, "password".toList,
   "url".toList, "notes".toList]

/-- C7: (1) a line with no `=` parses to a `MissingDelimeter` error naming
the line; (2) if any line of a record's input lacks `=`, the whole decode
fails with a `MissingDelimeter` error — no partial record; (3) a line
`a=b` with `=`-free key span `a` splits at that first `=`, the whole
remainder `b` (further `=` included) becoming the literal value, with the
trailing sensitivity marker stripped from the key span; (4) unknown key
text decodes to `Other`, never an error (`Key.fromStr` is total). -/
theorem kv_decode_contract :
    (∀ l : RStr, DELIMETER ∉ l →
       KeyValuePair.fromStr l = .error (KvError.MissingDelimeter l))
    ∧ (∀ (input line : RStr), line ∈ rustLines input → DELIMETER ∉ line →
       ∃ s, KvStore.deserialize input
         = .error (KvError.MissingDelimeter s))
    ∧ (∀ a b : RStr, DELIMETER ∉ a →
       KeyValuePair.fromStr (a ++ DELIMETER :: b)
         = .ok (if endsWithChar a SENSITIVITY
                then ⟨Key.fromStr a.dropLast, Value.Sensitive b⟩
                else ⟨Key.fromStr a, Value.Insensitive b⟩))
    ∧ (∀ s : RStr, s ∉ wellKnownKeyTexts → Key.fromStr s = Key.Other s) := by
  refine ⟨?_, ?_, ?_, ?_⟩
  · intro l h
    rw [KeyValuePair.fromStr, splitOnce_eq_none DELIMETER l h]
  · intro input line hmem hno
    obtain ⟨s, hs⟩ := collectResults_error (rustLines input) line hmem hno
    exact ⟨s, by simp [KvStore.deserialize, hs]⟩
  · intro a b h
    rw [KeyValuePair.fromStr, splitOnce_append DELIMETER a b h]
    by_cases he : endsWithChar a SENSITIVITY <;> simp [he]
  · intro s h
    simp only [wellKnownKeyTexts, List.mem_cons, not_or] at h
    obtain ⟨h1, h2, h3, h4, h5, h6, -⟩ := h
    rw [Key.fromStr, if_neg h1, if_neg h2, if_neg h3, if_neg h4, if_neg h5,
      if_neg h6]

/-- Witness for C7 at concrete lines: a delimiterless line fails naming
itself; a record with one bad line fails wholesale; `password!=hunter2=x`
splits at the first `=`; `favorite-color` decodes to `Other`. -/
theorem kv_decode_contract_witness :
    KeyValuePair.fromStr "nodelim".toList
      = .error (KvError.MissingDelimeter "nodelim".toList)
    ∧ (∃ s, KvStore.deserialize "name=a\nbad\nuser=b".toList
        = .error (KvError.MissingDelimeter s))
    ∧ KeyValuePair.fromStr
        ("password!".toList ++ DELIMETER :: "hunter2=x".toList)
      = .ok (if endsWithChar "password!".toList SENSITIVITY
             then ⟨Key.fromStr "password!".toList.dropLast,
                   Value.Sensitive "hunter2=x".toList⟩
             else ⟨Key.fromStr "password!".toList,
                   Value.Insensitive "hunter2=x".toList⟩)
    ∧ Key.fromStr "favorite-color".toList
      = Key.Other "favorite-color".toList :=
  ⟨kv_decode_contract.1 "nodelim".toList (by decide),
   kv_decode_contract.2.1 "name=a\nbad\nuser=b".toList "bad".toList
     (by decide) (by decide),
   kv_decode_contract.2.2.1 "password!".toList "hunter2=x".toList (by decide),
   kv_decode_contract.2.2.2 "favorite-color".toList (by decide)⟩

/-- The conditions under which one field line survives the round trip:
no newline and no delimiter inside the key text, no newline in the value,
no trailing carriage return on the value (`lines` would strip it), the key
in parse-canonical form (`Other` never holding a well-known name), and no
trailing sensitivity marker on the key of an insensitive value (decoding
would reinterpret it). -/
def roundTripSafe (p : KeyValuePair) : Prop :=
  '\n' ∉ p.key.display ∧ DELIMETER ∉ p.key.display
    ∧ '\n' ∉ p.value.text ∧ p.value.text.getLast? ≠ some '\r'
    ∧ Key.fromStr p.key.display = p.key
    ∧ (p.value.sensitiveFlag = true
       ∨ p.key.display.getLast? ≠ some SENSITIVITY)

instance (p : KeyValuePair) : Decidable (roundTripSafe p) := by
  unfold roundTripSafe
  infer_instance

/-- A serialized field line contains no newline when neither its key text
nor its value does. -/
theorem display_no_newline (p : KeyValuePair)
    (hk : '\n' ∉ p.key.display) (hv : '\n' ∉ p.value.text) :
    '\n' ∉ p.display := by
  obtain ⟨k, v⟩ := p
  cases v <;>
    simp_all [KeyValuePair.display, Value.sensitiveFlag, Value.text,
      DELIMETER, SENSITIVITY]

/-- A serialized field line never ends in a carriage return when its value
does not (an empty value leaves the delimiter as the last character). -/
theorem display_getLast_ne_cr (p : KeyValuePair)
    (hv : p.value.text.getLast? ≠ some '\r') :
    p.display.getLast? ≠ some '\r' := by
  obtain ⟨k, v⟩ := p
  have htext : ∃ t, Value.text v = t ∧ KeyValuePair.display ⟨k, v⟩
      = (k.display ++ (if v.sensitiveFlag then [SENSITIVITY] else [])
          ++ [DELIMETER]) ++ t := by
    exact ⟨v.text, rfl, by simp [KeyValuePair.display]⟩
  obtain ⟨t, hteq, hd⟩ := htext
  rw [hd]
  rcases List.eq_nil_or_concat t with rfl | ⟨t0, c, rfl⟩
  · simp [List.getLast?_concat]
    decide
  · rw [hteq] at hv
    rw [List.concat_eq_append] at hv ⊢
    rw [← List.append_assoc, List.getLast?_concat]
    rw [List.getLast?_concat] at hv
    exact hv

/-- Reading lines off `line ++ '\n' :: rest` yields the CR-stripped line
first, whatever has been accumulated so far. -/
theorem rustLinesGo_append (line : RStr) :
    ∀ (rest cur : RStr), '\n' ∉ line →
      rustLinesGo cur (line ++ '\n' :: rest)
        = stripCR (cur.reverse ++ line) :: rustLinesGo [] rest := by
  induction line with
  | nil => intro rest cur _; simp [rustLinesGo]
  | cons c cs ih =>
    intro rest cur hl
    simp only [List.mem_cons, not_or] at hl
    have hc : ¬(c = '\n') := fun h => hl.1 h.symm
    simp only [List.cons_append, rustLinesGo, if_neg hc, List.append_eq]
    rw [ih rest (c :: cur) hl.2]
    simp

/-- Stripping a carriage return from a line not ending in one is the identity. -/
theorem stripCR_eq_self (l : RStr) (h : l.getLast? ≠ some '\r') :
    stripCR l = l := by
  simp [stripCR, h]

/-- Decoding one serialized field line recovers the field exactly, under
`roundTripSafe`. -/
theorem fromStr_display (p : KeyValuePair) (h : roundTripSafe p) :
    KeyValuePair.fromStr p.display = .ok p := by
  obtain ⟨k, v⟩ := p
  obtain ⟨h1, h2, h3, h4, h5, h6⟩ := h
  cases v with
  | Sensitive t =>
    have hd : KeyValuePair.display ⟨k, .Sensitive t⟩
        = (k.display ++ [SENSITIVITY]) ++ DELIMETER :: t := by
      simp [KeyValuePair.display, Value.sensitiveFlag, Value.text]
    have hnd : DELIMETER ∉ k.display ++ [SENSITIVITY] := by
      simp only [List.mem_append, List.mem_singleton, not_or]
      exact ⟨h2, by decide⟩
    rw [hd, KeyValuePair.fromStr, splitOnce_append DELIMETER _ t hnd]
    have hew : endsWithChar (k.display ++ [SENSITIVITY]) SENSITIVITY = true := by
      simp [endsWithChar, List.getLast?_concat]
    simp only [hew, if_pos, List.dropLast_concat]
    rw [h5]
  | Insensitive t =>
    have hd : KeyValuePair.display ⟨k, .Insensitive t⟩
        = k.display ++ DELIMETER :: t := by
      simp [KeyValuePair.display, Value.sensitiveFlag, Value.text]
    rcases h6 with h6 | h6
    · simp [Value.sensitiveFlag] at h6
    · rw [hd, KeyValuePair.fromStr, splitOnce_append DELIMETER _ t h2]
      have hew : endsWithChar k.display SENSITIVITY = false := by
        simp [endsWithChar, h6]
      simp only [hew]
      simp only [Bool.false_eq_true, if_false]
      rw [h5]

/-- Parsing the serialization of a safe field list recovers it. -/
theorem collect_serialize (pairs : List KeyValuePair)
    (h : ∀ p ∈ pairs, roundTripSafe p) :
    collectResults KeyValuePair.fromStr
        (rustLines (KvStore.serialize ⟨pairs⟩)) = .ok pairs := by
  induction pairs with
  | nil => rfl
  | cons p rest ih =>
    have hp := h p (List.mem_cons_self p rest)
    obtain ⟨h1, h2, h3, h4, h5, h6⟩ := hp
    have hnn : '\n' ∉ p.display := display_no_newline p h1 h3
    have hcr : p.display.getLast? ≠ some '\r' := display_getLast_ne_cr p h4
    have hser : KvStore.serialize ⟨p :: rest⟩
        = p.display ++ '\n' :: KvStore.serialize ⟨rest⟩ := by
      simp [KvStore.serialize]
    rw [hser, rustLines, rustLinesGo_append p.display _ [] hnn]
    simp only [List.reverse_nil, List.nil_append]
    rw [stripCR_eq_self p.display hcr]
    rw [collectResults, fromStr_display p ⟨h1, h2, h3, h4, h5, h6⟩]
    rw [show rustLinesGo [] (KvStore.serialize ⟨rest⟩)
        = rustLines (KvStore.serialize ⟨rest⟩) from rfl]
    rw [ih (fun q hq => h q (List.mem_cons_of_mem p hq))]

/-- C3 amended: for every record whose fields are `roundTripSafe` — keys
and values newline-free, keys `=`-free and in parse-canonical form, keys
of insensitive values not ending in the sensitivity marker, values not
ending in a carriage return — deserializing the serialization yields the
record back, field for field and in order. -/
theorem kv_roundtrip_amended (pairs : List KeyValuePair)
    (h : ∀ p ∈ pairs, roundTripSafe p) :
    KvStore.deserialize (KvStore.serialize ⟨pairs⟩) = .ok ⟨pairs⟩ := by
  rw [KvStore.deserialize, collect_serialize pairs h]

/-- Witness for the amended C3 on a concrete three-field record with an
`=`-laden sensitive value, an `Other` key and an empty value. -/
theorem kv_roundtrip_amended_witness :
    KvStore.deserialize (KvStore.serialize ⟨[
        ⟨Key.Name, Value.Insensitive "my-site".toList⟩,
        ⟨Key.Password, Value.Sensitive "hunter2=x=y".toList⟩,
        ⟨Key.Other "tags".toList, Value.Insensitive ([] : RStr)⟩]⟩)
      = .ok ⟨[
        ⟨Key.Name, Value.Insensitive "my-site".toList⟩,
        ⟨Key.Password, Value.Sensitive "hunter2=x=y".toList⟩,
        ⟨Key.Other "tags".toList, Value.Insensitive ([] : RStr)⟩]⟩ :=
  kv_roundtrip_amended
    [⟨Key.Name, Value.Insensitive "my-site".toList⟩,
     ⟨Key.Password, Value.Sensitive "hunter2=x=y".toList⟩,
     ⟨Key.Other "tags".toList, Value.Insensitive ([] : RStr)⟩]
    (by decide)

/-- C3 counterexample: the record holding the single field
`(Other "a!", Insensitive "v")` satisfies the claim's hypotheses — no
newline in key or value, no `=` in the key — yet fails to round-trip: it
serializes to `a!=v`, which decodes as the **sensitive** field
`(Other "a", Sensitive "v")` because the decoder reads the key's trailing
`!` as the sensitivity marker. -/
theorem kv_roundtrip_counterexample :
    ('\n' ∉ "a!".toList ∧ DELIMETER ∉ "a!".toList ∧ '\n' ∉ "v".toList)
    ∧ KvStore.deserialize (KvStore.serialize
        ⟨[⟨Key.Other "a!".toList, Value.Insensitive "v".toList⟩]⟩)
      = .ok ⟨[⟨Key.Other "a".toList, Value.Sensitive "v".toList⟩]⟩
    ∧ KvStore.deserialize (KvStore.serialize
        ⟨[⟨Key.Other "a!".toList, Value.Insensitive "v".toList⟩]⟩)
      ≠ .ok ⟨[⟨Key.Other "a!".toList, Value.Insensitive "v".toList⟩]⟩ := by
  refine ⟨by decide, by decide, by decide⟩

/-- Reconstruction: `splitOnce` recovers its input. -/
theorem splitOnce_some (d : Char) :
    ∀ (l a b : RStr), splitOnce d l = some (a, b) → l = a ++ d :: b := by
  intro l
  induction l with
  | nil => intro a b h; cases h
  | cons c cs ih =>
    intro a b h
    rw [splitOnce] at h
    split at h
    case isTrue hc =>
      simp only [Option.some.injEq, Prod.mk.injEq] at h
      obtain ⟨rfl, rfl⟩ := h
      rw [hc]
      rfl
    case isFalse hc =>
      split at h
      case h_1 k v hm =>
        simp only [Option.some.injEq, Prod.mk.injEq] at h
        obtain ⟨rfl, rfl⟩ := h
        rw [List.cons_append, ih k v hm]
      case h_2 => cases h

/-- Reconstruction: `lastDotSplit` recovers the file name from stem and extension. -/
theorem lastDotSplit_eq (n stem ext : RStr)
    (h : lastDotSplit n = some (stem, ext)) :
    n = stem ++ '.' :: ext := by
  unfold lastDotSplit at h
  split at h
  case h_1 => cases h
  case h_2 extRev stemRev hs =>
    split at h
    · cases h
    · simp only [Option.some.injEq, Prod.mk.injEq] at h
      obtain ⟨rfl, rfl⟩ := h
      have h1 := splitOnce_some '.' n.reverse extRev stemRev hs
      have h2 := congrArg List.reverse h1
      simp only [List.reverse_reverse, List.reverse_append,
        List.reverse_cons] at h2
      rw [h2, List.append_assoc]
      rfl

/-- A name that passes the extension test splits as stem plus `"age"`. -/
theorem skip_false_split (n : RStr) (h : skipByExtension n = false) :
    lastDotSplit n = some (rustFileStem n, "age".toList) := by
  cases hl : lastDotSplit n with
  | none => simp [skipByExtension, rustExtension, hl] at h
  | some p =>
    obtain ⟨st2, ex⟩ := p
    simp [skipByExtension, rustExtension, hl] at h
    simp [rustFileStem, hl, h]

/-- A successful identifier parse pins the stem to the identifier's text. -/
theorem uuid_some_data (stem : RStr) (u : String)
    (h : Uuid.from_str stem = some u) : stem = u.data := by
  unfold Uuid.from_str at h
  split at h
  · injection h with h
    rw [← h]
  · cases h

/-- Inserting a fresh key appends the binding. -/
theorem insertAssoc_of_not_mem (k : String) (v : FsPath) :
    ∀ (l : List (String × FsPath)), k ∉ l.map Prod.fst →
      insertAssoc k v l = l ++ [(k, v)] := by
  intro l
  induction l with
  | nil => intro _; rfl
  | cons p rest ih =>
    intro h
    obtain ⟨k2, v2⟩ := p
    simp only [List.map_cons, List.mem_cons, not_or] at h
    rw [insertAssoc, if_neg (fun he => h.1 he.symm), ih h.2]
    rfl

/-- The expected result of `entries` for one directory child, following the
spec's words: a *valid entry file* (a non-directory whose name carries the
`age` extension and whose stem parses as an identifier) contributes its
identifier and path; every other artifact contributes nothing. -/
def entryOf (ep : FsPath) (nc : String × Entity) :
    Option (String × FsPath) :=
  match nc.2 with
  | .dir => none
  | .file _ =>
    if skipByExtension nc.1.toList then none
    else
      match Uuid.from_str (rustFileStem nc.1.toList) with
      | none => none
      | some u => some (u, ep ++ [nc.1])

/-- A child recognized as a valid entry has its name pinned down by the
produced identifier: `<identifier-text>.age`. -/
theorem entryOf_name (ep : FsPath) (nc : String × Entity) (u : String)
    (q : FsPath) (h : entryOf ep nc = some (u, q)) :
    nc.1.toList = u.data ++ '.' :: "age".toList ∧ q = ep ++ [nc.1] := by
  unfold entryOf at h
  split at h
  · cases h
  · split at h
    · cases h
    · split at h
      · cases h
      case h_2 u2 hu =>
        simp only [Option.some.injEq, Prod.mk.injEq] at h
        obtain ⟨rfl, rfl⟩ := h
        refine ⟨?_, rfl⟩
        rename_i hskip _
        have hsplit := skip_false_split nc.1.toList
          (Bool.not_eq_true _ ▸ hskip)
        have hrec := lastDotSplit_eq nc.1.toList (rustFileStem nc.1.toList)
          "age".toList hsplit
        rw [← uuid_some_data (rustFileStem nc.1.toList) u2 hu]
        exact hrec

/-- Distinct child names produce distinct identifiers among the recognized
entries. -/
theorem nodup_entry_keys (ep : FsPath) :
    ∀ (children : List (String × Entity)),
      (children.map Prod.fst).Nodup →
      ((children.filterMap (entryOf ep)).map Prod.fst).Nodup := by
  intro children
  induction children with
  | nil => intro _; simp
  | cons nc rest ih =>
    intro h
    simp only [List.map_cons, List.nodup_cons] at h
    cases he : entryOf ep nc with
    | none => simp only [List.filterMap_cons, he]; exact ih h.2
    | some p =>
      obtain ⟨u, q⟩ := p
      simp only [List.filterMap_cons, he, List.map_cons, List.nodup_cons]
      refine ⟨?_, ih h.2⟩
      intro hmem
      simp only [List.mem_map] at hmem
      obtain ⟨⟨u2, q2⟩, hmem2, hequ⟩ := hmem
      simp only [List.mem_filterMap] at hmem2
      obtain ⟨nc2, hnc2mem, hnc2⟩ := hmem2
      have h1 := entryOf_name ep nc u q he
      have h2 := entryOf_name ep nc2 u2 q2 hnc2
      have hnames : nc.1 = nc2.1 := by
        apply String.ext
        have h3 : nc.1.toList = nc2.1.toList := by
          rw [h1.1, h2.1]
          simp only at hequ
          rw [hequ]
        exact h3
      exact h.1 (hnames ▸ List.mem_map.mpr ⟨nc2, hnc2mem, rfl⟩)

/-- The enumeration loop, run on any suffix of the children and any
accumulated map whose keys avoid the identifiers still to come, appends
exactly the recognized entries. -/
theorem entriesGo_spec (st : FsState) (ep : FsPath) :
    ∀ (children : List (String × Entity)) (acc : List (String × FsPath)),
      (∀ nc ∈ children, lookupFs st (ep ++ [nc.1]) = some nc.2) →
      (∀ u ∈ (children.filterMap (entryOf ep)).map Prod.fst,
         u ∉ acc.map Prod.fst) →
      ((children.filterMap (entryOf ep)).map Prod.fst).Nodup →
      Filesystem.entriesGo st ep children acc
        = .ok (acc ++ children.filterMap (entryOf ep)) := by
  intro children
  induction children with
  | nil => intro acc _ _ _; simp [Filesystem.entriesGo]
  | cons nc rest ih =>
    intro acc hcoh hfresh hnd
    obtain ⟨name, e⟩ := nc
    have hl := hcoh ⟨name, e⟩ (List.mem_cons_self _ _)
    have hcoh2 := fun q hq => hcoh q (List.mem_cons_of_mem _ hq)
    cases e with
    | dir =>
      have he : entryOf ep (name, Entity.dir) = none := rfl
      simp only [List.filterMap_cons, he] at hfresh hnd ⊢
      rw [Filesystem.entriesGo, if_pos hl]
      exact ih acc hcoh2 hfresh hnd
    | file c =>
      have hndir : ¬(lookupFs st (ep ++ [name]) = some Entity.dir) := by
        rw [hl]
        intro hcon
        cases hcon
      rw [Filesystem.entriesGo, if_neg hndir]
      by_cases hskip : skipByExtension name.toList
      · rw [if_pos hskip]
        have he : entryOf ep (name, Entity.file c) = none := by
          simp [entryOf, show skipByExtension name.data = true from hskip]
        simp only [List.filterMap_cons, he] at hfresh hnd ⊢
        exact ih acc hcoh2 hfresh hnd
      · rw [if_neg hskip]
        have hskipf : skipByExtension name.toList = false := by
          simpa using hskip
        cases hu : Uuid.from_str (rustFileStem name.toList) with
        | none =>
          have he : entryOf ep (name, Entity.file c) = none := by
            simp [entryOf,
              show skipByExtension name.data = false from hskipf,
              show Uuid.from_str (rustFileStem name.data) = none from hu]
          simp only [List.filterMap_cons, he] at hfresh hnd ⊢
          exact ih acc hcoh2 hfresh hnd
        | some u =>
          have he : entryOf ep (name, Entity.file c)
              = some (u, ep ++ [name]) := by
            simp [entryOf,
              show skipByExtension name.data = false from hskipf,
              show Uuid.from_str (rustFileStem name.data) = some u from hu]
          have hfn : File.new (ep ++ [name]) st = .ok (ep ++ [name]) := by
            rw [File.new, hl]
          simp only [hfn]
          simp only [List.filterMap_cons, he] at hfresh hnd ⊢
          simp only [List.map_cons, List.nodup_cons] at hnd
          have hu_acc : u ∉ acc.map Prod.fst := by
            refine hfresh u ?_
            simp
          rw [insertAssoc_of_not_mem u (ep ++ [name]) acc hu_acc]
          have hfresh2 : ∀ u2 ∈ (rest.filterMap (entryOf ep)).map Prod.fst,
              u2 ∉ (acc ++ [(u, ep ++ [name])]).map Prod.fst := by
            intro u2 h2
            simp only [List.map_append, List.mem_append, List.map_cons,
              List.map_nil, List.mem_singleton, not_or]
            refine ⟨hfresh u2 (by simp [h2]), fun heq => hnd.1 (heq ▸ h2)⟩
          rw [ih (acc ++ [(u, ep ++ [name])]) hcoh2 hfresh2 hnd.2]
          simp

/-- C9: on a store state whose entries directory exists, whose recorded
children agree with path lookups, and whose child names are distinct, the
backend enumerates without error and returns exactly one
(identifier, reference) pair per valid entry file — a non-directory child
named `<identifier>.age` — and nothing for any other artifact (wrong or
missing extension, malformed identifier stem, subdirectory). -/
theorem entries_enumeration_tolerance (root : FsPath) (st : FsState)
    (hdir : lookupFs st (root ++ ["entries"]) = some Entity.dir)
    (hcoh : ∀ nc ∈ childrenOf st (root ++ ["entries"]),
       lookupFs st ((root ++ ["entries"]) ++ [nc.1]) = some nc.2)
    (hnd : ((childrenOf st (root ++ ["entries"])).map Prod.fst).Nodup) :
    Filesystem.entries root st
      = .ok ((childrenOf st (root ++ ["entries"])).filterMap
          (entryOf (root ++ ["entries"]))) := by
  have hep : Filesystem.entries_path root st = .ok (root ++ ["entries"]) := by
    simp [Filesystem.entries_path, Directory.subdirectory, Directory.new, hdir]
  rw [Filesystem.entries]
  simp only [hep, hdir]
  rw [entriesGo_spec st (root ++ ["entries"])
    (childrenOf st (root ++ ["entries"])) [] hcoh (by simp)
    (nodup_entry_keys (root ++ ["entries"])
      (childrenOf st (root ++ ["entries"])) hnd)]
  simp

/-- A demonstration state: one valid entry file amid a malformed-stem
file, a wrong-extension file, an extensionless file and a subdirectory. -/
def stEntriesDemo : FsState :=
  [ (["vault", "entries"], Entity.dir),
    (["vault", "entries", "0d8d2d52-5e9e-4f6b-8a3f-1f2e3d4c5b6a.age"],
     Entity.file "payload".toList),
    (["vault", "entries", "junk.age"], Entity.file "x".toList),
    (["vault", "entries", "0d8d2d52-5e9e-4f6b-8a3f-1f2e3d4c5b6a.txt"],
     Entity.file "y".toList),
    (["vault", "entries", "noext"], Entity.file "z".toList),
    (["vault", "entries", "subdir"], Entity.dir) ]

/-- Witness for C9: the demonstration store enumerates without error to
exactly the one valid entry. -/
theorem entries_enumeration_tolerance_witness :
    Filesystem.entries ["vault"] stEntriesDemo
      = .ok ((childrenOf stEntriesDemo (["vault"] ++ ["entries"])).filterMap
          (entryOf (["vault"] ++ ["entries"])))
    ∧ (childrenOf stEntriesDemo (["vault"] ++ ["entries"])).filterMap
          (entryOf (["vault"] ++ ["entries"]))
      = [("0d8d2d52-5e9e-4f6b-8a3f-1f2e3d4c5b6a",
          ["vault", "entries", "0d8d2d52-5e9e-4f6b-8a3f-1f2e3d4c5b6a.age"])] :=
  ⟨entries_enumeration_tolerance ["vault"] stEntriesDemo (by decide)
     (by decide) (by decide),
   by decide⟩
